import Mathlib

/-!
Shallow embedding of the `vm-device` crate (modules `bus/range.rs`, `bus/mod.rs`,
`device_manager.rs`, `resources.rs`) and verification of its specification.

Modelling conventions:
* `u64` values (guest addresses, range sizes) are `Nat`s; wherever the source
  performs checked arithmetic against `u64::MAX`, the model compares against
  `2^64` explicitly.  `usize` access lengths are also `Nat`s (the crate targets
  64-bit hosts, where `usize = u64` and the `len as u64` cast is lossless).
* The `BTreeMap<BusRange, D>` backing the bus is modelled as an association
  list ordered by base address (the map's comparator only looks at `base`);
  `insert` places the new entry at its sorted position and, like
  `BTreeMap::insert`, replaces the value but keeps the old key when an entry
  with an equal base already exists.
* Fallible operations return `Except Bus.Error`; operations mutating the bus
  return the new bus state explicitly.  A Rust panic (`unwrap` on `Err`) is
  modelled as `Option.none` in the result type.
-/

namespace VmDevice

/-- Errors encountered during bus operations (`bus/mod.rs`, `enum Error`). -/
inductive Bus.Error where
  | DeviceNotFound
  | DeviceOverlap
  | InvalidAccessLength (len : Nat)
  | InvalidRange
deriving DecidableEq, Repr

/-- An interval in the address space of a bus (`bus/range.rs`, `struct BusRange`):
`base` is a `GuestAddress` (u64) and `size` a u64. -/
structure BusRange where
  base : Nat
  size : Nat
deriving DecidableEq, Repr

namespace BusRange

/-- `BusRange::new`: create a new range while checking for overflow.
`base.0.checked_add(size - 1)` succeeds exactly when `base + (size - 1) ≤ u64::MAX`. -/
def new (base size : Nat) : Except Bus.Error BusRange :=
  if size = 0 then .error .InvalidRange
  else if base + (size - 1) < 2 ^ 64 then .ok ⟨base, size⟩
  else .error .InvalidRange

/-- `BusRange::unit`: a range of size 1. -/
def unit (base : Nat) : BusRange := ⟨base, 1⟩

/-- `BusRange::last`: the last bus address that is still part of the range,
`base + (size - 1)`.  (For the `size = 0` case — unreachable for ranges built by
`new` or `unit` — Rust's `u64` subtraction would panic; `Nat` subtraction
truncates instead, and no theorem below depends on that case.) -/
def last (r : BusRange) : Nat := r.base + (r.size - 1)

/-- `BusRange::overlaps`: `!(self.base > other.last() || self.last() < other.base)`. -/
def overlaps (r other : BusRange) : Bool :=
  !(decide (r.base > other.last) || decide (r.last < other.base))

/-- Well-formedness enjoyed by every `BusRange` the Rust type system can exhibit:
the fields are private and both constructors (`new`, `unit`) enforce a positive
size whose last address fits in a u64. -/
def wf (r : BusRange) : Prop := 1 ≤ r.size ∧ r.base + (r.size - 1) < 2 ^ 64

instance (r : BusRange) : Decidable r.wf := by unfold wf; infer_instance

end BusRange

/-- The bus map `BTreeMap<BusRange, D>` as an association list ordered by the
key comparator of `BusRange`, which compares `base` addresses only. -/
abbrev Bus (D : Type) := List (BusRange × D)

namespace Bus

variable {D : Type}

/-- `Bus::new` / `Bus::default`: the empty bus. -/
def new : Bus D := []

/-- `BTreeMap::insert` on the base-ordered map: place the entry at its sorted
position; on an equal base the stored key is kept and the value replaced. -/
def insert : Bus D → BusRange → D → Bus D
  | [], r, d => [(r, d)]
  | (r0, d0) :: rest, r, d =>
    if r.base < r0.base then (r, d) :: (r0, d0) :: rest
    else if r.base = r0.base then (r0, d) :: rest
    else (r0, d0) :: insert rest r d

/-- `self.devices.range(..=BusRange::unit(addr)).nth_back(0)`: the entry whose
base is greatest among those with base ≤ `addr` (the map's keys have pairwise
distinct bases, so this determines the entry uniquely). -/
def maxLE : Bus D → Nat → Option (BusRange × D)
  | [], _ => none
  | p :: rest, addr =>
    if p.1.base ≤ addr then
      match maxLE rest addr with
      | none => some p
      | some q => if q.1.base < p.1.base then some p else some q
    else maxLE rest addr

/-- `Bus::device`: the registered range and device associated with `addr`. -/
def device (b : Bus D) (addr : Nat) : Option (BusRange × D) :=
  (maxLE b addr).filter fun p => decide (p.1.last ≥ addr)

/-- `Bus::device_mut`: same lookup as `device`, returning the entry for mutable
access (mutability is immaterial in the model). -/
def device_mut (b : Bus D) (addr : Nat) : Option (BusRange × D) :=
  (maxLE b addr).filter fun p => decide (p.1.last ≥ addr)

/-- `Bus::register`: reject if `range` overlaps any existing key, else insert. -/
def register (b : Bus D) (range : BusRange) (device : D) : Except Error (Bus D) :=
  if b.any fun p => range.overlaps p.1 then .error .DeviceOverlap
  else .ok (insert b range device)

/-- `BTreeMap::remove(&range)` — value part: the value of the entry whose key
equals `range` under the base-only comparator. -/
def lookupKey : Bus D → Nat → Option D
  | [], _ => none
  | p :: rest, base => if p.1.base = base then some p.2 else lookupKey rest base

/-- `BTreeMap::remove(&range)` — state part: the map with the entry whose key
has the given base removed. -/
def eraseKey : Bus D → Nat → Bus D
  | [], _ => []
  | p :: rest, base => if p.1.base = base then rest else p :: eraseKey rest base

/-- `Bus::deregister`: look up the range containing `addr`, remove it, and
return the removed association together with the new bus state (`none` leaves
the bus untouched). -/
def deregister (b : Bus D) (addr : Nat) : Option (BusRange × D) × Bus D :=
  match device b addr with
  | none => (none, b)
  | some (range, _) =>
    match lookupKey b range.base with
    | none => (none, b)
    | some d => (some (range, d), eraseKey b range.base)

/-- `Bus::check_access`: build the probe range `BusRange::new(addr, len as u64)`
(mapping its error to `InvalidRange`), then require a registered range that
contains `addr` and whose last address reaches the probe's last address. -/
def check_access (b : Bus D) (addr : Nat) (len : Nat) :
    Except Error (BusRange × D) :=
  match BusRange.new addr len with
  | .error _ => .error .InvalidRange
  | .ok access_range =>
    match (device b addr).filter fun p => decide (p.1.last ≥ access_range.last) with
    | some p => .ok p
    | none => .error .DeviceNotFound

end Bus

/-- Modelled from the spec: the type `VirtioMmioOffset` lives in the crate's
`virtio_mmio` module, which is not among the available sources; the spec states
that the dispatcher computes `relative_offset = address - range.base` and hands
the device that offset, so the `From<u64>` conversion used by the dispatcher is
modelled as the identity on the u64 offset. -/
abbrev VirtioMmioOffset := Nat

/-- Modelled from the spec: `VirtioMmioOffset::from(offset)` wraps the raw
relative offset unchanged. -/
def VirtioMmioOffset.fromU64 (offset : Nat) : VirtioMmioOffset := offset

/-- The arguments of one `VirtioMmioDevice` invocation performed by the
dispatcher: the device handle, the registered base handed as first argument,
and the relative offset.  The source's `mmio_read`/`mmio_write` return
`Ok(())` after exactly one such call; the model returns the call record. -/
structure MmioCall (D : Type) where
  device : D
  base : Nat
  offset : VirtioMmioOffset
deriving DecidableEq, Repr

namespace MmioManager

variable {D : Type}

/-- `MmioManager::mmio_read` (`device_manager.rs`): dispatch a read at `addr`
for a buffer of length `len = data.len()`.  On success the device is invoked
once with `(range.base(), VirtioMmioOffset::from(addr - range.base()), data)`;
the model records that single call. -/
def mmio_read (b : Bus D) (addr : Nat) (len : Nat) :
    Except Bus.Error (MmioCall D) :=
  (Bus.check_access b addr len).map fun p =>
    ⟨p.2, p.1.base, VirtioMmioOffset.fromU64 (addr - p.1.base)⟩

/-- `MmioManager::mmio_write`: dispatch a write at `addr` for a buffer of
length `len`; same access check and argument translation as `mmio_read`. -/
def mmio_write (b : Bus D) (addr : Nat) (len : Nat) :
    Except Bus.Error (MmioCall D) :=
  (Bus.check_access b addr len).map fun p =>
    ⟨p.2, p.1.base, VirtioMmioOffset.fromU64 (addr - p.1.base)⟩

end MmioManager

/-- `resources.rs`, `enum MsiIrqType`. -/
inductive MsiIrqType where
  | PciMsi
  | PciMsix
  | GenericMsi
deriving DecidableEq, Repr

/-- `resources.rs`, `enum Resource`: device resource descriptors.  The MMIO
registration path only inspects `GuestAddressRange`; the other variants pass
through untouched. -/
inductive Resource where
  | GuestAddressRange (base size : Nat)
  | LegacyIrq (irq : Nat)
  | MsiIrq (ty : MsiIrqType) (base size : Nat)
  | MacAddresss (addr : String)
  | KvmMemSlot (slot : Nat)
deriving DecidableEq, Repr

/-- `device_manager.rs`, `enum Error`: errors of `IoManager` operations, a
wrapper around the bus error. -/
inductive DeviceManager.Error where
  | Bus (e : Bus.Error)
deriving DecidableEq, Repr

/-- `IoManager`: holds the MMIO bus (`mmio_bus`).  The device type parameter
stands for `Arc<dyn VirtioMmioDevice + Send + Sync>`. -/
structure IoManager (D : Type) where
  mmio_bus : Bus D

namespace IoManager

variable {D : Type}

/-- `IoManager::register_mmio_resources`: iterate over the descriptors; for
each `GuestAddressRange { base, size }` build `BusRange::new(GuestAddress(base),
size).unwrap()` and register it on the MMIO bus, propagating bus errors wrapped
in `Error::Bus`; skip every other descriptor.  The `unwrap` panics when
`BusRange::new` fails; a panic is modelled as `none`.  The returned state is
the manager as mutated so far (registrations before a failure are kept). -/
def register_mmio_resources (m : IoManager D) (device : D) :
    List Resource → Option (Except DeviceManager.Error Unit × IoManager D)
  | [] => some (.ok (), m)
  | .GuestAddressRange base size :: rest =>
    match BusRange.new base size with
    | .error _ => none
    | .ok range =>
      match Bus.register m.mmio_bus range device with
      | .error e => some (.error (.Bus e), m)
      | .ok b2 => register_mmio_resources ⟨b2⟩ device rest
  | _ :: rest => register_mmio_resources m device rest

end IoManager

/-- A bus mutation: the two operations that change a bus's map. -/
inductive BusOp (D : Type) where
  | register (range : BusRange) (device : D)
  | deregister (addr : Nat)

namespace Bus

variable {D : Type}

/-- Apply one operation to a bus state; a failed `register` leaves the map
exactly as it was (the source returns the error before inserting). -/
def step (b : Bus D) : BusOp D → Bus D
  | .register range d =>
    match register b range d with
    | .ok b2 => b2
    | .error _ => b
  | .deregister addr => (deregister b addr).2

/-- Run a sequence of operations from a given bus state. -/
def run (b : Bus D) : List (BusOp D) → Bus D
  | [] => b
  | op :: ops => run (step b op) ops

/-- The bus invariant: all registered ranges are well-formed and pairwise
non-overlapping. -/
def wf (b : Bus D) : Prop :=
  List.Pairwise (fun p q => BusRange.overlaps p.1 q.1 = false) b ∧
    ∀ p ∈ b, p.1.wf

instance (b : Bus D) : Decidable b.wf := by unfold wf; infer_instance

end Bus

/-! ### Properties of `BusRange` -/

namespace BusRange

theorem overlaps_eq_false_iff {r o : BusRange} :
    r.overlaps o = false ↔ (o.last < r.base ∨ r.last < o.base) := by
  unfold overlaps
  rcases Nat.lt_or_ge o.last r.base with h | h <;>
    rcases Nat.lt_or_ge r.last o.base with h2 | h2 <;>
      simp [h, h2]

theorem overlaps_eq_true_iff {r o : BusRange} :
    r.overlaps o = true ↔ (r.base ≤ o.last ∧ o.base ≤ r.last) := by
  rw [← Bool.not_eq_false, overlaps_eq_false_iff]
  omega

theorem overlaps_comm (r o : BusRange) : r.overlaps o = o.overlaps r := by
  rw [Bool.eq_iff_iff, overlaps_eq_true_iff, overlaps_eq_true_iff]
  constructor <;> exact fun h => ⟨h.2, h.1⟩

theorem base_le_last {r : BusRange} (_h : 1 ≤ r.size) : r.base ≤ r.last := by
  unfold last; omega

theorem base_ne_of_not_overlaps {r o : BusRange} (hr : 1 ≤ r.size) (ho : 1 ≤ o.size)
    (h : r.overlaps o = false) : r.base ≠ o.base := by
  rw [overlaps_eq_false_iff] at h
  have h1 := base_le_last hr
  have h2 := base_le_last ho
  omega

end BusRange

/-! ### Properties of the bus lookup -/

namespace Bus

variable {D : Type}

theorem maxLE_eq_none {b : Bus D} {addr : Nat} :
    maxLE b addr = none → ∀ q ∈ b, addr < q.1.base := by
  induction b with
  | nil => intro _ q hq; simp at hq
  | cons hd tl ih =>
    intro h q hq
    cases hm : maxLE tl addr with
    | none =>
      simp only [maxLE, hm] at h
      by_cases hhd : hd.1.base ≤ addr
      · rw [if_pos hhd] at h; exact absurd h (by simp)
      · rcases List.mem_cons.1 hq with rfl | hq
        · omega
        · exact ih hm q hq
    | some q0 =>
      simp only [maxLE, hm] at h
      by_cases hhd : hd.1.base ≤ addr
      · rw [if_pos hhd] at h
        split at h <;> exact absurd h (by simp)
      · rw [if_neg hhd] at h
        exact absurd h (by simp)

theorem maxLE_eq_some {b : Bus D} {addr : Nat} {p : BusRange × D} :
    maxLE b addr = some p →
    p ∈ b ∧ p.1.base ≤ addr ∧ ∀ q ∈ b, q.1.base ≤ addr → q.1.base ≤ p.1.base := by
  induction b generalizing p with
  | nil => intro h; simp [maxLE] at h
  | cons hd tl ih =>
    intro h
    cases hm : maxLE tl addr with
    | none =>
      simp only [maxLE, hm] at h
      by_cases hhd : hd.1.base ≤ addr
      · rw [if_pos hhd] at h
        simp only [Option.some.injEq] at h
        subst h
        refine ⟨List.mem_cons_self .., hhd, ?_⟩
        intro q hq hqa
        rcases List.mem_cons.1 hq with rfl | hq
        · exact le_refl _
        · exact absurd hqa (by have := maxLE_eq_none hm q hq; omega)
      · rw [if_neg hhd] at h
        exact absurd h (by simp)
    | some q0 =>
      obtain ⟨hq0mem, hq0le, hq0max⟩ := ih hm
      simp only [maxLE, hm] at h
      by_cases hhd : hd.1.base ≤ addr
      · rw [if_pos hhd] at h
        by_cases hlt : q0.1.base < hd.1.base
        · rw [if_pos hlt] at h
          simp only [Option.some.injEq] at h
          subst h
          refine ⟨List.mem_cons_self .., hhd, ?_⟩
          intro q hq hqa
          rcases List.mem_cons.1 hq with rfl | hq
          · exact le_refl _
          · have := hq0max q hq hqa; omega
        · rw [if_neg hlt] at h
          simp only [Option.some.injEq] at h
          subst h
          refine ⟨List.mem_cons_of_mem _ hq0mem, hq0le, ?_⟩
          intro q hq hqa
          rcases List.mem_cons.1 hq with rfl | hq
          · omega
          · exact hq0max q hq hqa
      · rw [if_neg hhd] at h
        simp only [Option.some.injEq] at h
        subst h
        refine ⟨List.mem_cons_of_mem _ hq0mem, hq0le, ?_⟩
        intro q hq hqa
        rcases List.mem_cons.1 hq with rfl | hq
        · omega
        · exact hq0max q hq hqa

/-- Any successful `device` lookup returns a registered entry containing the
address. -/
theorem device_some {b : Bus D} {A : Nat} {p : BusRange × D}
    (h : device b A = some p) : p ∈ b ∧ p.1.base ≤ A ∧ A ≤ p.1.last := by
  unfold device at h
  cases hm : maxLE b A with
  | none => rw [hm] at h; simp [Option.filter] at h
  | some q =>
    rw [hm] at h
    obtain ⟨hmem, hle, -⟩ := maxLE_eq_some hm
    simp only [Option.filter, ge_iff_le, decide_eq_true_eq] at h
    split at h
    · cases h; exact ⟨hmem, hle, by assumption⟩
    · cases h

/-- If no registered range contains `A`, `device` finds nothing. -/
theorem device_none {b : Bus D} {A : Nat}
    (h : ∀ p ∈ b, ¬(p.1.base ≤ A ∧ A ≤ p.1.last)) : device b A = none := by
  cases hd : device b A with
  | none => rfl
  | some p =>
    obtain ⟨hmem, h1, h2⟩ := device_some hd
    exact absurd ⟨h1, h2⟩ (h p hmem)

/-- On a well-formed bus, `device` at an address inside a registered range
returns exactly that range and its device. -/
theorem device_covers {b : Bus D} (hb : b.wf) {R : BusRange} {d : D} {A : Nat}
    (hmem : (R, d) ∈ b) (h1 : R.base ≤ A) (h2 : A ≤ R.last) :
    device b A = some (R, d) := by
  obtain ⟨hpw, hwfm⟩ := hb
  cases hm : maxLE b A with
  | none =>
    have hlt : A < R.base := maxLE_eq_none hm _ hmem
    omega
  | some p =>
    obtain ⟨hpmem, hple, hpmax⟩ := maxLE_eq_some hm
    have hRp : p = (R, d) := by
      by_contra hne
      have hsym : Symmetric fun p q : BusRange × D => BusRange.overlaps p.1 q.1 = false :=
        fun p q h => by
          show BusRange.overlaps q.1 p.1 = false
          rw [BusRange.overlaps_comm]
          exact h
      have hno : p.1.overlaps (R, d).1 = false := hpw.forall hsym hpmem hmem hne
      have hno' : R.last < p.1.base ∨ p.1.last < R.base :=
        BusRange.overlaps_eq_false_iff.1 hno
      have hRle : R.base ≤ p.1.base := hpmax _ hmem h1
      have hplast := BusRange.base_le_last (hwfm _ hpmem).1
      omega
    subst hRp
    unfold device
    rw [hm]
    simp [Option.filter, h2]

/-! ### Properties of registration and removal -/

/-- The symmetry of interval non-overlap, in the form `List.Pairwise` needs. -/
theorem overlaps_symm :
    Symmetric fun p q : BusRange × D => BusRange.overlaps p.1 q.1 = false :=
  fun p q h => by
    show BusRange.overlaps q.1 p.1 = false
    rw [BusRange.overlaps_comm]
    exact h

theorem register_error_of_overlap {b : Bus D} {range : BusRange} {d : D}
    (h : ∃ p ∈ b, range.overlaps p.1 = true) :
    register b range d = .error .DeviceOverlap := by
  unfold register
  rw [if_pos (List.any_eq_true.2 (by obtain ⟨p, hp, hov⟩ := h; exact ⟨p, hp, hov⟩))]

theorem register_ok_of_no_overlap {b : Bus D} {range : BusRange} {d : D}
    (h : ∀ p ∈ b, range.overlaps p.1 = false) :
    register b range d = .ok (insert b range d) := by
  unfold register
  rw [if_neg]
  simp only [List.any_eq_true, not_exists]
  intro p
  rw [not_and]
  intro hp
  simp [h p hp]

theorem mem_insert {b : Bus D} {r : BusRange} {d : D}
    (hne : ∀ p ∈ b, p.1.base ≠ r.base) (q : BusRange × D) :
    q ∈ insert b r d ↔ q = (r, d) ∨ q ∈ b := by
  induction b with
  | nil => simp [insert]
  | cons hd tl ih =>
    obtain ⟨r0, d0⟩ := hd
    have hne0 : r0.base ≠ r.base := hne (r0, d0) (List.mem_cons_self ..)
    simp only [insert]
    rcases Nat.lt_trichotomy r.base r0.base with hlt | heq | hgt
    · rw [if_pos hlt]
      simp [List.mem_cons, or_assoc]
    · omega
    · rw [if_neg (by omega), if_neg (by omega)]
      have ih' := ih fun p hp => hne p (List.mem_cons_of_mem _ hp)
      simp only [List.mem_cons, ih']
      tauto

theorem pairwise_insert {b : Bus D} {r : BusRange} {d : D}
    (hno : ∀ p ∈ b, r.overlaps p.1 = false)
    (hne : ∀ p ∈ b, p.1.base ≠ r.base)
    (hp : List.Pairwise (fun p q => BusRange.overlaps p.1 q.1 = false) b) :
    List.Pairwise (fun p q => BusRange.overlaps p.1 q.1 = false) (insert b r d) := by
  induction b with
  | nil => simp [insert]
  | cons hd tl ih =>
    obtain ⟨r0, d0⟩ := hd
    have hne0 : r0.base ≠ r.base := hne (r0, d0) (List.mem_cons_self ..)
    obtain ⟨hhd, htl⟩ := List.pairwise_cons.1 hp
    simp only [insert]
    rcases Nat.lt_trichotomy r.base r0.base with hlt | heq | hgt
    · rw [if_pos hlt]
      refine List.pairwise_cons.2 ⟨?_, hp⟩
      intro q hq
      rcases List.mem_cons.1 hq with rfl | hq
      · exact hno _ (List.mem_cons_self ..)
      · exact hno q (List.mem_cons_of_mem _ hq)
    · omega
    · rw [if_neg (by omega), if_neg (by omega)]
      refine List.pairwise_cons.2 ⟨?_, ?_⟩
      · intro q hq
        rw [mem_insert (fun p hp => hne p (List.mem_cons_of_mem _ hp)) q] at hq
        rcases hq with rfl | hq
        · show r0.overlaps r = false
          rw [BusRange.overlaps_comm]
          exact hno _ (List.mem_cons_self ..)
        · exact hhd q hq
      · exact ih (fun p hp => hno p (List.mem_cons_of_mem _ hp))
          (fun p hp => hne p (List.mem_cons_of_mem _ hp)) htl

theorem eraseKey_sublist (b : Bus D) (base : Nat) : List.Sublist (eraseKey b base) b := by
  induction b with
  | nil => simp [eraseKey]
  | cons hd tl ih =>
    simp only [eraseKey]
    split
    · exact List.sublist_cons_self hd tl
    · exact ih.cons₂ hd

/-- `Bus.wf` restricted to a sublist. -/
theorem wf_of_sublist {b b' : Bus D} (h : List.Sublist b' b) (hb : b.wf) : b'.wf :=
  ⟨hb.1.sublist h, fun p hp => hb.2 p (h.mem hp)⟩

theorem wf_register {b b' : Bus D} {range : BusRange} {d : D} (hb : b.wf)
    (hr : range.wf) (h : register b range d = .ok b') : b'.wf := by
  unfold register at h
  split at h
  · cases h
  · rename_i hany
    simp only [List.any_eq_true, not_exists, not_and] at hany
    have hno : ∀ p ∈ b, range.overlaps p.1 = false := by
      intro p hp
      have := hany p hp
      simpa using this
    have hne : ∀ p ∈ b, p.1.base ≠ range.base := by
      intro p hp
      exact Ne.symm (BusRange.base_ne_of_not_overlaps hr.1 ((hb.2 p hp)).1 (hno p hp))
    cases h
    exact ⟨pairwise_insert hno hne hb.1,
      fun p hp => by
        rcases (mem_insert hne p).1 hp with rfl | hp
        · exact hr
        · exact hb.2 p hp⟩

theorem wf_step {b : Bus D} (hb : b.wf) (op : BusOp D)
    (hop : ∀ r d, op = .register r d → r.wf) : (step b op).wf := by
  cases op with
  | register range d =>
    simp only [step]
    cases h : register b range d with
    | ok b2 => exact wf_register hb (hop range d rfl) h
    | error e => exact hb
  | deregister addr =>
    simp only [step]
    unfold deregister
    split
    · exact hb
    · split
      · exact hb
      · exact wf_of_sublist (eraseKey_sublist ..) hb

theorem wf_run {b : Bus D} (hb : b.wf) (ops : List (BusOp D))
    (hops : ∀ r d, BusOp.register r d ∈ ops → r.wf) : (run b ops).wf := by
  induction ops generalizing b with
  | nil => exact hb
  | cons op rest ih =>
    simp only [run]
    exact ih (wf_step hb op fun r d h => hops r d (h ▸ List.mem_cons_self ..))
      fun r d h => hops r d (List.mem_cons_of_mem _ h)

/-- On a well-formed bus, distinct entries have distinct bases. -/
theorem base_ne_of_wf {b : Bus D} (hb : b.wf) {p q : BusRange × D}
    (hp : p ∈ b) (hq : q ∈ b) (hpq : p ≠ q) : p.1.base ≠ q.1.base :=
  BusRange.base_ne_of_not_overlaps (hb.2 p hp).1 (hb.2 q hq).1
    (hb.1.forall overlaps_symm hp hq hpq)

/-- A well-formed range overlaps itself. -/
theorem self_overlaps {r : BusRange} (h : 1 ≤ r.size) : r.overlaps r = true :=
  BusRange.overlaps_eq_true_iff.2 ⟨BusRange.base_le_last h, BusRange.base_le_last h⟩

/-- On a well-formed bus, the head entry does not recur in the tail. -/
theorem not_mem_tail_of_wf {hd : BusRange × D} {tl : Bus D}
    (hb : Bus.wf (hd :: tl)) : hd ∉ tl := by
  intro h
  have hpw := (List.pairwise_cons.1 hb.1).1 hd h
  simp only at hpw
  rw [self_overlaps (hb.2 hd (List.mem_cons_self ..)).1] at hpw
  cases hpw

theorem lookupKey_eq {b : Bus D} (hb : b.wf) {R : BusRange} {d : D}
    (hmem : (R, d) ∈ b) : lookupKey b R.base = some d := by
  induction b with
  | nil => simp at hmem
  | cons hd tl ih =>
    simp only [lookupKey]
    rcases List.mem_cons.1 hmem with rfl | hmem'
    · simp
    · rw [if_neg]
      · exact ih (wf_of_sublist (List.sublist_cons_self hd tl) hb) hmem'
      · have hne : hd ≠ (R, d) := fun h => not_mem_tail_of_wf hb (h ▸ hmem')
        exact base_ne_of_wf hb (List.mem_cons_self ..) (List.mem_cons_of_mem _ hmem') hne

theorem mem_eraseKey {b : Bus D} (hb : b.wf) {R : BusRange} {d : D}
    (hmem : (R, d) ∈ b) (q : BusRange × D) :
    q ∈ eraseKey b R.base ↔ q ∈ b ∧ q.1.base ≠ R.base := by
  induction b with
  | nil => simp at hmem
  | cons hd tl ih =>
    have hbtl : Bus.wf tl := wf_of_sublist (List.sublist_cons_self hd tl) hb
    simp only [eraseKey]
    by_cases hhd : hd.1.base = R.base
    · rw [if_pos hhd]
      constructor
      · intro hq
        refine ⟨List.mem_cons_of_mem _ hq, fun hqb => ?_⟩
        have hqhd : q ≠ hd := fun h => not_mem_tail_of_wf hb (h ▸ hq)
        exact base_ne_of_wf hb (List.mem_cons_of_mem _ hq) (List.mem_cons_self ..)
          hqhd (by rw [hqb, hhd])
      · rintro ⟨hq, hqb⟩
        rcases List.mem_cons.1 hq with rfl | hq
        · exact absurd hhd hqb
        · exact hq
    · rw [if_neg hhd]
      have hmem' : (R, d) ∈ tl := by
        rcases List.mem_cons.1 hmem with rfl | h
        · exact absurd rfl hhd
        · exact h
      have ih' := ih hbtl hmem'
      simp only [List.mem_cons, ih']
      constructor
      · rintro (rfl | ⟨hq, hqb⟩)
        · exact ⟨Or.inl rfl, hhd⟩
        · exact ⟨Or.inr hq, hqb⟩
      · rintro ⟨rfl | hq, hqb⟩
        · exact Or.inl rfl
        · exact Or.inr ⟨hq, hqb⟩

end Bus

/-! ### Properties of range construction and access checking -/

theorem BusRange.new_eq_ok_iff {base size : Nat} {r : BusRange} :
    BusRange.new base size = .ok r ↔
      (size ≠ 0 ∧ base + (size - 1) < 2 ^ 64 ∧ r = ⟨base, size⟩) := by
  unfold new
  by_cases h0 : size = 0
  · rw [if_pos h0]; simp [h0]
  · rw [if_neg h0]
    by_cases h1 : base + (size - 1) < 2 ^ 64
    · rw [if_pos h1]
      constructor
      · intro h; cases h; exact ⟨h0, h1, rfl⟩
      · rintro ⟨-, -, rfl⟩; rfl
    · rw [if_neg h1]
      constructor
      · intro h; cases h
      · rintro ⟨-, h2, -⟩; exact absurd h2 h1

namespace Bus

variable {D : Type}

theorem check_access_ok {b : Bus D} (hb : b.wf) {R : BusRange} {d : D} {A L : Nat}
    (hL : 0 < L) (hmem : (R, d) ∈ b) (h1 : R.base ≤ A) (h2 : A + L - 1 ≤ R.last) :
    check_access b A L = .ok (R, d) := by
  have hlast : R.last < 2 ^ 64 := (hb.2 _ hmem).2
  have hnew : BusRange.new A L = .ok ⟨A, L⟩ :=
    BusRange.new_eq_ok_iff.2 ⟨by omega, by unfold BusRange.last at h2 hlast; omega, rfl⟩
  unfold check_access
  rw [hnew, device_covers hb hmem h1 (by unfold BusRange.last at h2 ⊢; omega)]
  have hcond : decide ((R, d).1.last ≥ (BusRange.mk A L).last) = true := by
    simp only [decide_eq_true_eq, ge_iff_le, BusRange.last]
    unfold BusRange.last at h2
    omega
  simp [Option.filter, hcond]

theorem check_access_not_found {b : Bus D} {A L : Nat}
    (hL : 0 < L) (hOv : A + (L - 1) < 2 ^ 64)
    (h : ∀ p ∈ b, ¬(p.1.base ≤ A ∧ A + L - 1 ≤ p.1.last)) :
    check_access b A L = .error .DeviceNotFound := by
  have hnew : BusRange.new A L = .ok ⟨A, L⟩ :=
    BusRange.new_eq_ok_iff.2 ⟨by omega, hOv, rfl⟩
  unfold check_access
  rw [hnew]
  cases hdev : device b A with
  | none => simp [Option.filter]
  | some p =>
    obtain ⟨hpmem, hp1, hp2⟩ := device_some hdev
    have hlt : p.1.last < A + L - 1 := by
      have hnp := h p hpmem
      rw [not_and] at hnp
      have := hnp hp1
      omega
    simp only [Option.filter]
    rw [if_neg (by
      simp only [decide_eq_true_eq, ge_iff_le]
      have he : (BusRange.mk A L).last = A + (L - 1) := rfl
      rw [he]
      omega)]

theorem check_access_invalid {b : Bus D} {A L : Nat}
    (h : L = 0 ∨ 2 ^ 64 ≤ A + (L - 1)) :
    check_access b A L = .error .InvalidRange := by
  have hnew : BusRange.new A L = .error .InvalidRange := by
    unfold BusRange.new
    by_cases hL : L = 0
    · rw [if_pos hL]
    · rcases h with rfl | h2
      · exact absurd rfl hL
      · rw [if_neg hL, if_neg (by omega)]
  unfold check_access
  rw [hnew]

theorem check_access_ok_inv {b : Bus D} {A L : Nat} {R : BusRange} {d : D}
    (h : check_access b A L = .ok (R, d)) :
    (R, d) ∈ b ∧ R.base ≤ A ∧ A + L - 1 ≤ R.last ∧ 0 < L := by
  unfold check_access at h
  cases hnew : BusRange.new A L with
  | error e => rw [hnew] at h; cases h
  | ok ar =>
    obtain ⟨hL, hOv, rfl⟩ := BusRange.new_eq_ok_iff.1 hnew
    rw [hnew] at h
    cases hdev : device b A with
    | none => rw [hdev] at h; simp [Option.filter] at h
    | some p =>
      obtain ⟨hpmem, hp1, hp2⟩ := device_some hdev
      rw [hdev] at h
      simp only [Option.filter] at h
      by_cases hc : decide (p.1.last ≥ (BusRange.mk A L).last) = true
      · rw [if_pos hc] at h
        cases h
        simp only [decide_eq_true_eq, ge_iff_le, BusRange.last] at hc
        refine ⟨hpmem, hp1, ?_, by omega⟩
        unfold BusRange.last
        omega
      · rw [if_neg hc] at h
        cases h

end Bus

namespace IoManager

variable {D : Type}

/-- Processing a concatenated descriptor list: the second half runs only when
the first succeeds; a failure or panic in the first half short-circuits. -/
theorem register_mmio_resources_append (m : IoManager D) (d : D)
    (rs1 rs2 : List Resource) :
    register_mmio_resources m d (rs1 ++ rs2) =
      match register_mmio_resources m d rs1 with
      | none => none
      | some (.error e, m1) => some (.error e, m1)
      | some (.ok _, m1) => register_mmio_resources m1 d rs2 := by
  induction rs1 generalizing m with
  | nil => simp [register_mmio_resources]
  | cons res rest ih =>
    cases res with
    | GuestAddressRange base size =>
      cases hnew : BusRange.new base size with
      | error e =>
        simp only [List.cons_append, register_mmio_resources, hnew]
      | ok range =>
        cases hreg : Bus.register m.mmio_bus range d with
        | error e =>
          simp only [List.cons_append, register_mmio_resources, hnew, hreg]
        | ok b2 =>
          simp only [List.cons_append, register_mmio_resources, hnew, hreg]
          exact ih ⟨b2⟩
    | LegacyIrq irq =>
      simp only [List.cons_append, register_mmio_resources]
      exact ih m
    | MsiIrq ty base size =>
      simp only [List.cons_append, register_mmio_resources]
      exact ih m
    | MacAddresss addr =>
      simp only [List.cons_append, register_mmio_resources]
      exact ih m
    | KvmMemSlot slot =>
      simp only [List.cons_append, register_mmio_resources]
      exact ih m

/-- When every address-range descriptor is a valid range, the `unwrap` inside
`register_mmio_resources` never fires: no panic. -/
theorem register_mmio_resources_isSome {m : IoManager D} {d : D}
    {rs : List Resource}
    (h : ∀ base size, Resource.GuestAddressRange base size ∈ rs →
      1 ≤ size ∧ base + (size - 1) < 2 ^ 64) :
    register_mmio_resources m d rs ≠ none := by
  induction rs generalizing m with
  | nil => simp [register_mmio_resources]
  | cons res rest ih =>
    cases res with
    | GuestAddressRange base size =>
      have hv := h base size (List.mem_cons_self ..)
      have hnew : BusRange.new base size = .ok ⟨base, size⟩ :=
        BusRange.new_eq_ok_iff.2 ⟨by omega, hv.2, rfl⟩
      simp only [register_mmio_resources, hnew]
      cases hreg : Bus.register m.mmio_bus ⟨base, size⟩ d with
      | error e => simp
      | ok b2 => exact ih fun b s hm => h b s (List.mem_cons_of_mem _ hm)
    | LegacyIrq irq =>
      simp only [register_mmio_resources]
      exact ih fun b s hm => h b s (List.mem_cons_of_mem _ hm)
    | MsiIrq ty base size =>
      simp only [register_mmio_resources]
      exact ih fun b s hm => h b s (List.mem_cons_of_mem _ hm)
    | MacAddresss addr =>
      simp only [register_mmio_resources]
      exact ih fun b s hm => h b s (List.mem_cons_of_mem _ hm)
    | KvmMemSlot slot =>
      simp only [register_mmio_resources]
      exact ih fun b s hm => h b s (List.mem_cons_of_mem _ hm)

end IoManager

/-! ### The specification claims -/

/-- C6: Range construction validity: `BusRange::new(base, 0)` always fails with
`InvalidRange`; for `size > 0`, `new(base, size)` fails iff `base + size - 1`
overflows u64; otherwise it succeeds and the constructed range satisfies
`base() = base`, `size() = size` and `last() = base + size - 1`. -/
theorem bus_range_new_spec (base size : Nat) :
    (BusRange.new base 0 = .error .InvalidRange) ∧
    (0 < size →
      ((∃ r, BusRange.new base size = .ok r) ↔ base + size - 1 < 2 ^ 64)) ∧
    (∀ r, BusRange.new base size = .ok r →
      r.base = base ∧ r.size = size ∧ r.last = base + size - 1) := by
  refine ⟨rfl, ?_, ?_⟩
  · intro hs
    constructor
    · rintro ⟨r, hr⟩
      obtain ⟨-, h1, -⟩ := BusRange.new_eq_ok_iff.1 hr
      omega
    · intro h
      exact ⟨⟨base, size⟩, BusRange.new_eq_ok_iff.2 ⟨by omega, by omega, rfl⟩⟩
  · intro r hr
    obtain ⟨h0, h1, rfl⟩ := BusRange.new_eq_ok_iff.1 hr
    refine ⟨rfl, rfl, ?_⟩
    unfold BusRange.last
    simp only
    omega

/-- Witness for C6, at `base = 5`, `size = 3`. -/
theorem bus_range_new_spec_witness :
    (∃ r, BusRange.new 5 3 = .ok r) ∧
    ((⟨5, 3⟩ : BusRange).base = 5 ∧ (⟨5, 3⟩ : BusRange).size = 3 ∧
      (⟨5, 3⟩ : BusRange).last = 5 + 3 - 1) :=
  ⟨((bus_range_new_spec 5 3).2.1 (by decide)).2 (by decide),
   (bus_range_new_spec 5 3).2.2 ⟨5, 3⟩ (by rfl)⟩

/-- C8: Adjacency allowed: ranges that merely touch (`r1.last + 1 = r2.base`)
do not overlap and the second registers successfully after the first; ranges
sharing even one address overlap and the second registration fails with
`DeviceOverlap`.  Concretely, `[0,9]` then `[10,19]` both register, while
`[0,10]` then `[10,19]` fails on the second. -/
theorem bus_adjacent_ranges {D : Type} :
    (∀ (r1 r2 : BusRange) (d1 d2 : D), r1.last + 1 = r2.base →
      r1.overlaps r2 = false ∧ r2.overlaps r1 = false ∧
      Bus.register [(r1, d1)] r2 d2 = .ok (Bus.insert [(r1, d1)] r2 d2)) ∧
    (∀ (r1 r2 : BusRange) (A : Nat) (b : Bus D) (d1 d2 : D),
      r1.base ≤ A → A ≤ r1.last → r2.base ≤ A → A ≤ r2.last → (r1, d1) ∈ b →
      r2.overlaps r1 = true ∧ Bus.register b r2 d2 = .error .DeviceOverlap) ∧
    (Bus.register [((⟨0, 10⟩ : BusRange), (0 : Nat))] ⟨10, 10⟩ 0 =
      .ok [(⟨0, 10⟩, 0), (⟨10, 10⟩, 0)]) ∧
    (Bus.register [((⟨0, 11⟩ : BusRange), (0 : Nat))] ⟨10, 10⟩ 0 =
      .error .DeviceOverlap) := by
  refine ⟨?_, ?_, by rfl, by rfl⟩
  · intro r1 r2 d1 d2 hadj
    have h12 : r1.overlaps r2 = false :=
      BusRange.overlaps_eq_false_iff.2 (Or.inr (by omega))
    have h21 : r2.overlaps r1 = false :=
      BusRange.overlaps_eq_false_iff.2 (Or.inl (by omega))
    refine ⟨h12, h21, Bus.register_ok_of_no_overlap ?_⟩
    intro p hp
    rcases List.mem_cons.1 hp with rfl | hp
    · exact h21
    · simp at hp
  · intro r1 r2 A b d1 d2 h1 h2 h3 h4 hmem
    have hov : r2.overlaps r1 = true :=
      BusRange.overlaps_eq_true_iff.2 ⟨by omega, by omega⟩
    exact ⟨hov, Bus.register_error_of_overlap ⟨(r1, d1), hmem, hov⟩⟩

/-- Witness for C8: the adjacency part at `[0,9]`/`[10,19]` and the
shared-address part at `[0,10]`/`[10,19]` sharing address 10. -/
theorem bus_adjacent_ranges_witness :
    (BusRange.overlaps ⟨0, 10⟩ ⟨10, 10⟩ = false ∧
     BusRange.overlaps ⟨10, 10⟩ ⟨0, 10⟩ = false ∧
     Bus.register [((⟨0, 10⟩ : BusRange), (0 : Nat))] ⟨10, 10⟩ 0 =
       .ok (Bus.insert [(⟨0, 10⟩, 0)] ⟨10, 10⟩ 0)) ∧
    (BusRange.overlaps ⟨10, 10⟩ ⟨0, 11⟩ = true ∧
     Bus.register [((⟨0, 11⟩ : BusRange), (1 : Nat))] ⟨10, 10⟩ 2 =
       .error .DeviceOverlap) :=
  ⟨(bus_adjacent_ranges (D := Nat)).1 ⟨0, 10⟩ ⟨10, 10⟩ 0 0 (by decide),
   (bus_adjacent_ranges (D := Nat)).2.1 ⟨0, 11⟩ ⟨10, 10⟩ 10 [(⟨0, 11⟩, 1)] 1 2
     (by decide) (by decide) (by decide) (by decide) (by decide)⟩

/-- C1: Non-overlap invariant: after any sequence of `register`/`deregister`
operations from the empty bus (with ranges the Rust type can exhibit,
i.e. well-formed), no two registered ranges overlap; a `register` whose range
overlaps a currently-registered range returns `DeviceOverlap` and leaves the
bus's map exactly as it was. -/
theorem bus_nonoverlap_invariant {D : Type} (ops : List (BusOp D))
    (hops : ∀ r d, BusOp.register r d ∈ ops → r.wf) :
    List.Pairwise (fun p q => BusRange.overlaps p.1 q.1 = false)
      (Bus.run Bus.new ops) ∧
    (∀ (b : Bus D) (range : BusRange) (d : D) (p : BusRange × D),
      p ∈ b → range.overlaps p.1 = true →
      Bus.register b range d = .error .DeviceOverlap ∧
      Bus.step b (.register range d) = b) := by
  constructor
  · exact (Bus.wf_run ⟨List.Pairwise.nil, fun p hp => absurd hp (List.not_mem_nil p)⟩
      ops hops).1
  · intro b range d p hp hov
    have hreg := Bus.register_error_of_overlap (d := d) ⟨p, hp, hov⟩
    exact ⟨hreg, by simp [Bus.step, hreg]⟩

/-- Witness for C1: three registrations (one overlapping, rejected) and one
deregistration from the empty bus, plus the frame part of a rejected
registration on a one-entry bus. -/
theorem bus_nonoverlap_invariant_witness :
    List.Pairwise (fun p q => BusRange.overlaps p.1 q.1 = false)
      (Bus.run Bus.new [BusOp.register ⟨0, 10⟩ (1 : Nat), BusOp.register ⟨5, 10⟩ 2,
        BusOp.register ⟨10, 10⟩ 3, BusOp.deregister 3]) ∧
    (Bus.register [((⟨0, 10⟩ : BusRange), (1 : Nat))] ⟨5, 10⟩ 2 =
      .error .DeviceOverlap ∧
     Bus.step [((⟨0, 10⟩ : BusRange), (1 : Nat))] (.register ⟨5, 10⟩ 2) =
      [(⟨0, 10⟩, 1)]) :=
  ⟨(bus_nonoverlap_invariant _ (by
      intro r d h
      simp only [List.mem_cons, List.not_mem_nil, or_false] at h
      rcases h with h | h | h | h
      · injection h with h1 h2; subst h1; decide
      · injection h with h1 h2; subst h1; decide
      · injection h with h1 h2; subst h1; decide
      · exact BusOp.noConfusion h)).1,
   (bus_nonoverlap_invariant ([] : List (BusOp Nat))
      (fun r d h => absurd h (List.not_mem_nil _))).2
     [(⟨0, 10⟩, 1)] ⟨5, 10⟩ 2 (⟨0, 10⟩, 1) (by decide) (by decide)⟩

/-- C2: Point-lookup containment correctness: on a well-formed bus, `device`
(and `device_mut`) at any address inside a registered range returns exactly
that range and its handle; at an address inside no registered range they
return nothing. -/
theorem bus_device_containment {D : Type} (b : Bus D) (hb : b.wf) :
    (∀ (R : BusRange) (d : D) (A : Nat), (R, d) ∈ b → R.base ≤ A → A ≤ R.last →
      Bus.device b A = some (R, d) ∧ Bus.device_mut b A = some (R, d)) ∧
    (∀ A : Nat, (∀ p ∈ b, ¬(p.1.base ≤ A ∧ A ≤ p.1.last)) →
      Bus.device b A = none ∧ Bus.device_mut b A = none) := by
  constructor
  · intro R d A hmem h1 h2
    have h := Bus.device_covers hb hmem h1 h2
    exact ⟨h, h⟩
  · intro A hA
    have h := Bus.device_none hA
    exact ⟨h, h⟩

/-- Witness for C2 on the one-entry bus `[0,9] ↦ 7`, hit at 5 and missed
at 10. -/
theorem bus_device_containment_witness :
    (Bus.device [((⟨0, 10⟩ : BusRange), (7 : Nat))] 5 = some (⟨0, 10⟩, 7) ∧
     Bus.device_mut [((⟨0, 10⟩ : BusRange), (7 : Nat))] 5 = some (⟨0, 10⟩, 7)) ∧
    (Bus.device [((⟨0, 10⟩ : BusRange), (7 : Nat))] 10 = none ∧
     Bus.device_mut [((⟨0, 10⟩ : BusRange), (7 : Nat))] 10 = none) :=
  ⟨(bus_device_containment [(⟨0, 10⟩, 7)] (by decide)).1 ⟨0, 10⟩ 7 5
      (by decide) (by decide) (by decide),
   (bus_device_containment [(⟨0, 10⟩, 7)] (by decide)).2 10 (by decide)⟩

/-- C3: Access-fit correctness: for a constructible probe `(A, L)`
(`0 < L` and no u64 overflow of `A + L - 1`), `check_access` succeeds with
`(R, d)` iff registered `R` satisfies `R.base ≤ A` and `A + L - 1 ≤ R.last`;
when `A` lies inside a registered range whose end the access exceeds, it fails
with `DeviceNotFound` — never truncated or split. -/
theorem bus_check_access_fit {D : Type} (b : Bus D) (hb : b.wf) (A L : Nat)
    (hL : 0 < L) (hOv : A + L - 1 < 2 ^ 64) :
    (∀ (R : BusRange) (d : D), (R, d) ∈ b → R.base ≤ A → A + L - 1 ≤ R.last →
      Bus.check_access b A L = .ok (R, d)) ∧
    ((∀ p ∈ b, ¬(p.1.base ≤ A ∧ A + L - 1 ≤ p.1.last)) →
      Bus.check_access b A L = .error .DeviceNotFound) ∧
    (∀ (R : BusRange) (d : D), Bus.check_access b A L = .ok (R, d) →
      (R, d) ∈ b ∧ R.base ≤ A ∧ A + L - 1 ≤ R.last) ∧
    (∀ (R : BusRange) (d : D), (R, d) ∈ b → R.base ≤ A → A ≤ R.last →
      R.last < A + L - 1 → Bus.check_access b A L = .error .DeviceNotFound) := by
  have hOv' : A + (L - 1) < 2 ^ 64 := by omega
  refine ⟨?_, ?_, ?_, ?_⟩
  · intro R d hmem h1 h2
    exact Bus.check_access_ok hb hL hmem h1 h2
  · intro h
    exact Bus.check_access_not_found hL hOv' h
  · intro R d h
    obtain ⟨hm, h1, h2, -⟩ := Bus.check_access_ok_inv h
    exact ⟨hm, h1, h2⟩
  · intro R d hmem h1 h2 h3
    apply Bus.check_access_not_found hL hOv'
    intro p hp
    rintro ⟨hp1, hp2⟩
    by_cases hpR : p = (R, d)
    · subst hpR
      have hfit : A + L - 1 ≤ R.last := hp2
      omega
    · have hno : p.1.overlaps (R, d).1 = false :=
        hb.1.forall Bus.overlaps_symm hp hmem hpR
      have hno' : R.last < p.1.base ∨ p.1.last < R.base :=
        BusRange.overlaps_eq_false_iff.1 hno
      omega

/-- Witness for C3 on the bus `[0x1000, 0x10FF] ↦ 3`: a 2-byte access at the
base fits; a 16-byte access at 0x10F8 straddles the end and is rejected. -/
theorem bus_check_access_fit_witness :
    Bus.check_access [((⟨0x1000, 0x100⟩ : BusRange), (3 : Nat))] 0x1000 2 =
      .ok (⟨0x1000, 0x100⟩, 3) ∧
    Bus.check_access [((⟨0x1000, 0x100⟩ : BusRange), (3 : Nat))] 0x10F8 16 =
      .error .DeviceNotFound :=
  ⟨(bus_check_access_fit [(⟨0x1000, 0x100⟩, 3)] (by decide) 0x1000 2
      (by decide) (by decide)).1 ⟨0x1000, 0x100⟩ 3 (by decide) (by decide) (by decide),
   (bus_check_access_fit [(⟨0x1000, 0x100⟩, 3)] (by decide) 0x10F8 16
      (by decide) (by decide)).2.2.2 ⟨0x1000, 0x100⟩ 3 (by decide) (by decide)
      (by decide) (by decide)⟩

/-- C4: Dispatcher translation and error propagation: `mmio_read`/`mmio_write`
go through `check_access(A, L)`; on success the device is invoked exactly once
with the registered range's base and the relative offset `A - base` and the
call returns Ok; on failure the bus error is propagated unchanged and no device
is invoked (the model's error result carries no call record). -/
theorem mmio_dispatch_translation {D : Type} (b : Bus D) (hb : b.wf) (A L : Nat) :
    (∀ (R : BusRange) (d : D), (R, d) ∈ b → 0 < L → R.base ≤ A →
      A + L - 1 ≤ R.last →
      MmioManager.mmio_read b A L =
        .ok ⟨d, R.base, VirtioMmioOffset.fromU64 (A - R.base)⟩ ∧
      MmioManager.mmio_write b A L =
        .ok ⟨d, R.base, VirtioMmioOffset.fromU64 (A - R.base)⟩) ∧
    (∀ e, Bus.check_access b A L = .error e →
      MmioManager.mmio_read b A L = .error e ∧
      MmioManager.mmio_write b A L = .error e) := by
  constructor
  · intro R d hmem hL h1 h2
    have hca := Bus.check_access_ok hb hL hmem h1 h2
    constructor
    · unfold MmioManager.mmio_read
      rw [hca]
      rfl
    · unfold MmioManager.mmio_write
      rw [hca]
      rfl
  · intro e he
    constructor
    · unfold MmioManager.mmio_read
      rw [he]
      rfl
    · unfold MmioManager.mmio_write
      rw [he]
      rfl

/-- Witness for C4: the handle 7 registered at `[0,9]` and `[100,109]`, hit at
address 105 with a 2-byte access, receives base 100 and relative offset 5. -/
theorem mmio_dispatch_translation_witness :
    MmioManager.mmio_read [((⟨0, 10⟩ : BusRange), (7 : Nat)), (⟨100, 10⟩, 7)] 105 2 =
      .ok ⟨7, 100, VirtioMmioOffset.fromU64 (105 - 100)⟩ ∧
    MmioManager.mmio_write [((⟨0, 10⟩ : BusRange), (7 : Nat)), (⟨100, 10⟩, 7)] 105 2 =
      .ok ⟨7, 100, VirtioMmioOffset.fromU64 (105 - 100)⟩ :=
  (mmio_dispatch_translation [(⟨0, 10⟩, 7), (⟨100, 10⟩, 7)] (by decide) 105 2).1
    ⟨100, 10⟩ 7 (by decide) (by decide) (by decide) (by decide)

/-- C7: Deregistration exactness: on a well-formed bus, deregistering an
uncovered address is a no-op returning nothing; deregistering an address
covered by range `R` returns `(R, d)`, removes exactly that entry (an entry
survives iff it was present and keyed differently), and afterwards every
address within `R` resolves to nothing. -/
theorem bus_deregister_exact {D : Type} (b : Bus D) (hb : b.wf) (A : Nat) :
    ((∀ p ∈ b, ¬(p.1.base ≤ A ∧ A ≤ p.1.last)) →
      Bus.deregister b A = (none, b)) ∧
    (∀ (R : BusRange) (d : D), (R, d) ∈ b → R.base ≤ A → A ≤ R.last →
      (Bus.deregister b A).1 = some (R, d) ∧
      (∀ q, q ∈ (Bus.deregister b A).2 ↔ q ∈ b ∧ q.1.base ≠ R.base) ∧
      (∀ B, R.base ≤ B → B ≤ R.last →
        Bus.device (Bus.deregister b A).2 B = none)) := by
  constructor
  · intro h
    unfold Bus.deregister
    rw [Bus.device_none h]
  · intro R d hmem h1 h2
    have hdev := Bus.device_covers hb hmem h1 h2
    have hlk := Bus.lookupKey_eq hb hmem
    have hder : Bus.deregister b A = (some (R, d), Bus.eraseKey b R.base) := by
      simp only [Bus.deregister, hdev, hlk]
    refine ⟨by rw [hder], ?_, ?_⟩
    · intro q
      rw [hder]
      exact Bus.mem_eraseKey hb hmem q
    · intro B hB1 hB2
      rw [hder]
      apply Bus.device_none
      intro q hq
      rw [Bus.mem_eraseKey hb hmem q] at hq
      rintro ⟨hq1, hq2⟩
      have hqR : q ≠ (R, d) := fun h => hq.2 (by rw [h])
      have hno : q.1.overlaps (R, d).1 = false :=
        hb.1.forall Bus.overlaps_symm hq.1 hmem hqR
      have hno' : R.last < q.1.base ∨ q.1.last < R.base :=
        BusRange.overlaps_eq_false_iff.1 hno
      have hqb : q.1.base ≠ R.base := hq.2
      omega

/-- Witness for C7: a miss at 55 on a one-entry bus, and a hit at 12 on a
two-entry bus removing `[10,14]` so that 10 no longer resolves. -/
theorem bus_deregister_exact_witness :
    (Bus.deregister [((⟨0, 10⟩ : BusRange), (7 : Nat))] 55 =
      (none, [(⟨0, 10⟩, 7)])) ∧
    ((Bus.deregister [((⟨0, 10⟩ : BusRange), (7 : Nat)), (⟨10, 5⟩, 8)] 12).1 =
      some (⟨10, 5⟩, 8) ∧
     Bus.device
       (Bus.deregister [((⟨0, 10⟩ : BusRange), (7 : Nat)), (⟨10, 5⟩, 8)] 12).2
       10 = none) :=
  ⟨(bus_deregister_exact [(⟨0, 10⟩, 7)] (by decide) 55).1 (by decide),
   ⟨((bus_deregister_exact [(⟨0, 10⟩, 7), (⟨10, 5⟩, 8)] (by decide) 12).2
       ⟨10, 5⟩ 8 (by decide) (by decide) (by decide)).1,
    ((bus_deregister_exact [(⟨0, 10⟩, 7), (⟨10, 5⟩, 8)] (by decide) 12).2
       ⟨10, 5⟩ 8 (by decide) (by decide) (by decide)).2.2 10
       (by decide) (by decide)⟩⟩

/-- C9: the error variant `InvalidAccessLength` is never produced: `register`,
`check_access`, `mmio_read` and `mmio_write` cannot return it (`device`,
`device_mut` and `deregister` return `Option`s and carry no error value at
all), and a zero-length or overflowing access surfaces as `InvalidRange`. -/
theorem invalid_access_length_never_produced {D : Type} (b : Bus D)
    (A L n : Nat) (range : BusRange) (d : D) :
    (Bus.register b range d ≠ .error (.InvalidAccessLength n)) ∧
    (Bus.check_access b A L ≠ .error (.InvalidAccessLength n)) ∧
    (MmioManager.mmio_read b A L ≠ .error (.InvalidAccessLength n)) ∧
    (MmioManager.mmio_write b A L ≠ .error (.InvalidAccessLength n)) ∧
    ((L = 0 ∨ 2 ^ 64 ≤ A + (L - 1)) →
      Bus.check_access b A L = .error .InvalidRange ∧
      MmioManager.mmio_read b A L = .error .InvalidRange ∧
      MmioManager.mmio_write b A L = .error .InvalidRange) := by
  have hca : ∀ e, Bus.check_access b A L = .error e →
      e = .DeviceNotFound ∨ e = .InvalidRange := by
    intro e he
    unfold Bus.check_access at he
    cases hnew : BusRange.new A L with
    | error e2 =>
      simp only [hnew] at he
      cases he
      exact Or.inr rfl
    | ok ar =>
      simp only [hnew] at he
      cases hfil : (Bus.device b A).filter fun p => decide (p.1.last ≥ ar.last) with
      | none =>
        simp only [hfil] at he
        cases he
        exact Or.inl rfl
      | some p =>
        simp only [hfil] at he
        cases he
  refine ⟨?_, ?_, ?_, ?_, ?_⟩
  · unfold Bus.register
    split <;> simp
  · intro h
    rcases hca _ h with h2 | h2 <;> exact Bus.Error.noConfusion h2
  · intro h
    unfold MmioManager.mmio_read at h
    cases hc : Bus.check_access b A L with
    | ok p => rw [hc] at h; simp [Except.map] at h
    | error e =>
      rw [hc] at h
      simp only [Except.map, Except.error.injEq] at h
      subst h
      rcases hca _ hc with h2 | h2 <;> exact Bus.Error.noConfusion h2
  · intro h
    unfold MmioManager.mmio_write at h
    cases hc : Bus.check_access b A L with
    | ok p => rw [hc] at h; simp [Except.map] at h
    | error e =>
      rw [hc] at h
      simp only [Except.map, Except.error.injEq] at h
      subst h
      rcases hca _ hc with h2 | h2 <;> exact Bus.Error.noConfusion h2
  · intro h
    have hc := Bus.check_access_invalid (b := b) h
    refine ⟨hc, ?_, ?_⟩
    · unfold MmioManager.mmio_read
      rw [hc]
      rfl
    · unfold MmioManager.mmio_write
      rw [hc]
      rfl

/-- Witness for C9: a zero-length access surfaces as `InvalidRange` on every
path, and the never-`InvalidAccessLength` parts applied at the same input. -/
theorem invalid_access_length_never_produced_witness :
    (Bus.register [((⟨0, 10⟩ : BusRange), (7 : Nat))] ⟨20, 5⟩ 7 ≠
      .error (.InvalidAccessLength 0)) ∧
    (Bus.check_access [((⟨0, 10⟩ : BusRange), (7 : Nat))] 5 0 =
      .error .InvalidRange ∧
     MmioManager.mmio_read [((⟨0, 10⟩ : BusRange), (7 : Nat))] 5 0 =
      .error .InvalidRange ∧
     MmioManager.mmio_write [((⟨0, 10⟩ : BusRange), (7 : Nat))] 5 0 =
      .error .InvalidRange) :=
  ⟨(invalid_access_length_never_produced [(⟨0, 10⟩, 7)] 5 0 0 ⟨20, 5⟩ 7).1,
   (invalid_access_length_never_produced [(⟨0, 10⟩, 7)] 5 0 0 ⟨20, 5⟩ 7).2.2.2.2
     (Or.inl rfl)⟩

/-- C5 counterexample: `register_mmio_resources` over the single descriptor
`GuestAddressRange { base: 0, size: 0 }` reaches
`BusRange::new(GuestAddress(0), 0).unwrap()` on an `Err(InvalidRange)` and
panics (modelled as `none`) instead of returning a typed error. -/
theorem register_mmio_resources_panics_on_invalid_descriptor :
    IoManager.register_mmio_resources (⟨[]⟩ : IoManager Nat) 0
      [Resource.GuestAddressRange 0 0] = none := rfl

/-- C5 (amended): the Bus and MMIO-dispatch operations are total functions
into the enumerated error type (they are, by construction, total Lean
functions into `Except Bus.Error` — no panic is modelled anywhere in them),
and `register_mmio_resources` neither panics nor fails untypedly provided
every address-range descriptor is a valid range (`size > 0` and
`base + size - 1` within u64); its outcome is then success or a wrapped typed
bus error.  (On an invalid descriptor it panics: see the counterexample.) -/
theorem error_surface_total_on_valid_descriptors {D : Type} (m : IoManager D)
    (d : D) (rs : List Resource)
    (h : ∀ base size, Resource.GuestAddressRange base size ∈ rs →
      1 ≤ size ∧ base + (size - 1) < 2 ^ 64) :
    (∃ r, IoManager.register_mmio_resources m d rs = some r) ∧
    (∀ res m1, IoManager.register_mmio_resources m d rs = some (res, m1) →
      res = .ok () ∨ ∃ e, res = .error (.Bus e)) := by
  constructor
  · cases hr : IoManager.register_mmio_resources m d rs with
    | none => exact absurd hr (IoManager.register_mmio_resources_isSome h)
    | some r => exact ⟨r, rfl⟩
  · intro res m1 _
    cases res with
    | ok u => cases u; exact Or.inl rfl
    | error e => cases e with | Bus e2 => exact Or.inr ⟨e2, rfl⟩

/-- Witness for C5 (amended), on two valid descriptors (one of which is not an
address range and passes through). -/
theorem error_surface_total_on_valid_descriptors_witness :
    ∃ r, IoManager.register_mmio_resources (⟨[]⟩ : IoManager Nat) 0
      [Resource.GuestAddressRange 0 10, Resource.LegacyIrq 5] = some r :=
  (error_surface_total_on_valid_descriptors ⟨[]⟩ 0
    [Resource.GuestAddressRange 0 10, Resource.LegacyIrq 5] (by
      intro base size h
      simp only [List.mem_cons, List.not_mem_nil, or_false] at h
      rcases h with h | h
      · injection h with h1 h2
        subst h1
        subst h2
        decide
      · exact Resource.noConfusion h)).1

/-- C10: resource registration is not atomic over the descriptor list: when
the prefix `rs1` processes successfully reaching manager state `m1` and the
next address-range descriptor's (valid) range fails to register with bus error
`e`, the call returns `Error::Bus e` with state exactly `m1`: every range
registered for the earlier descriptors stays on the bus (no rollback) and the
descriptors after the failing one are never processed. -/
theorem register_mmio_resources_not_atomic {D : Type} (m m1 : IoManager D)
    (d : D) (rs1 rs2 : List Resource) (base size : Nat) (range : BusRange)
    (e : Bus.Error)
    (h1 : IoManager.register_mmio_resources m d rs1 = some (.ok (), m1))
    (h2 : BusRange.new base size = .ok range)
    (h3 : Bus.register m1.mmio_bus range d = .error e) :
    IoManager.register_mmio_resources m d
      (rs1 ++ Resource.GuestAddressRange base size :: rs2) =
      some (.error (.Bus e), m1) := by
  rw [IoManager.register_mmio_resources_append, h1]
  simp only [IoManager.register_mmio_resources, h2, h3]

/-- Witness for C10: `[0,9]` registers, `[5,14]` overlaps and fails, and the
valid tail descriptor `[100,109]` is never registered; the final state keeps
exactly `[0,9]`. -/
theorem register_mmio_resources_not_atomic_witness :
    IoManager.register_mmio_resources (⟨[]⟩ : IoManager Nat) 0
      [Resource.GuestAddressRange 0 10, Resource.GuestAddressRange 5 10,
       Resource.GuestAddressRange 100 10] =
      some (.error (.Bus .DeviceOverlap), ⟨[(⟨0, 10⟩, 0)]⟩) :=
  register_mmio_resources_not_atomic ⟨[]⟩ ⟨[(⟨0, 10⟩, 0)]⟩ 0
    [Resource.GuestAddressRange 0 10] [Resource.GuestAddressRange 100 10]
    5 10 ⟨5, 10⟩ .DeviceOverlap (by rfl) (by rfl) (by rfl)

end VmDevice
